import Mathlib

/-!
Verification of the résumé-ranking logic of `Curriculos.py`.

Shallow-embedding conventions:
* Python strings are `List Char` (abbreviated `Str`).
* Scores are `ℚ`; the external sentence-embedding model is abstracted by two
  parameters, `encode : Str → E` (for `model.encode`) and
  `cosSim : E → E → ℚ` (for `util.cos_sim`).
* The outcome of the external PDF/DOCX parser for a single file is given as
  an `Except Str Str` value: the raw extracted text, or the message of the
  exception the parser raised.
-/

abbrev Str := List Char

/-- Python `str.strip()`: drop leading and trailing whitespace. -/
def strip (s : Str) : Str :=
  ((s.dropWhile Char.isWhitespace).reverse.dropWhile Char.isWhitespace).reverse

/-- Python `str.lower()`, modelled characterwise. -/
def lowerStr (s : Str) : Str := s.map Char.toLower

/-- Python `str.endswith(pat)`. -/
def endsWith (pat s : Str) : Bool := List.isSuffixOf pat s

/-- Python's substring test `k in t` on strings: `k` occurs contiguously in `t`. -/
def substrOf (k t : Str) : Bool :=
  (List.range (t.length + 1)).any fun i => k.isPrefixOf (t.drop i)

/-- Number of positions of `s` at which `pat` starts an occurrence
(the sense of "contains `pat` literally k times"). -/
def countOccurrences (pat s : Str) : Nat :=
  ((List.range (s.length + 1)).filter fun i => pat.isPrefixOf (s.drop i)).length

/-- Word characters as matched by the regex class `\w` (ASCII model:
letters, digits, underscore). -/
def isWordChar (c : Char) : Bool := c.isAlphanum || c == '_'

/-- Maximal runs of characters satisfying `p`, accumulator version. -/
def runsAux (p : Char → Bool) : Str → Str → List Str
  | [], acc => if acc.isEmpty then [] else [acc.reverse]
  | c :: cs, acc =>
    if p c then runsAux p cs (c :: acc)
    else if acc.isEmpty then runsAux p cs []
    else acc.reverse :: runsAux p cs []

/-- Maximal runs of characters of `s` satisfying `p`, in order. -/
def runsOf (p : Char → Bool) (s : Str) : List Str := runsAux p s []

/-- `re.findall(r'\w{4,}', s)`: the maximal word-character runs of `s` having
length at least 4, in order of occurrence. -/
def findallWord4 (s : Str) : List Str :=
  (runsOf isWordChar s).filter fun w => 4 ≤ w.length

/-- Line 107 of `Curriculos.py`:
`[job_title] + [word for word in re.findall(r'\w{4,}', job_desc) if len(word) > 3]`. -/
def job_keywords (job_title job_desc : Str) : List Str :=
  job_title :: (findallWord4 job_desc).filter fun w => 3 < w.length

/-- Python `str.split()` with no argument: maximal runs of non-whitespace. -/
def whitespaceTokens (s : Str) : List Str := runsOf (fun c => !c.isWhitespace) s

/-- The keyword list as the spec words it (§4.2): the title followed by the
whitespace-delimited tokens of the description of length ≥ 4, in order,
duplicates retained. Stated only to be compared against `job_keywords`. -/
def specKeywords (job_title job_desc : Str) : List Str :=
  job_title :: (whitespaceTokens job_desc).filter fun w => 4 ≤ w.length

/-- The apostrophe character. -/
def squote : Char := Char.ofNat 39

/-- Python `repr` of a string holding no quote, backslash or control
characters: the text between two single quotes. -/
def pyReprStr (s : Str) : Str := squote :: s ++ [squote]

/-- Python `str` of a list of strings, as produced by the f-string
`f"{job_keywords}"` on line 59: bracketed, comma-separated quoted items. -/
def pyStrOfList (l : List Str) : Str :=
  '[' :: (List.intercalate (", ".toList) (l.map pyReprStr)) ++ [']']

/-- Line 59: `job_text = f"{job_keywords}"`, the profile string actually
passed to the embedding model. -/
def job_text_of (kws : List Str) : Str := pyStrOfList kws

/-- The profile string as the spec words it (§4.3): "the concatenated
keyword/profile string", i.e. the plain concatenation of the keywords.
Stated only to be compared against `job_text_of`. -/
def specProfileText (kws : List Str) : Str := kws.flatten

/-- Line 63 of `analyze_resume`:
`matches = sum(1 for keyword in job_keywords if keyword in text)`. -/
def countMatches (kws : List Str) (text : Str) : Nat :=
  ((kws.filter fun k => substrOf k text).map fun _ => 1).sum

/-- Lines 58–64, `analyze_resume`: the match count and the cosine similarity
between the embeddings of the profile string and of the résumé text. -/
def analyze_resume {E : Type} (encode : Str → E) (cosSim : E → E → ℚ)
    (text : Str) (kws : List Str) : Nat × ℚ :=
  let job_text := job_text_of kws
  let score := cosSim (encode job_text) (encode text)
  let nMatches := countMatches kws text
  (nMatches, score)

/-- Line 43: `"\n".join(page.extract_text() or "" for page in pdf.pages)`.
A page yields `some text`, or `none` when `extract_text` returns `None`. -/
def pdfJoin (pages : List (Option Str)) : Str :=
  List.intercalate ['\n'] (pages.map fun p => p.getD [])

/-- Line 46: `"\n".join(p.text for p in doc.paragraphs if p.text.strip())`. -/
def docxJoin (paras : List Str) : Str :=
  List.intercalate ['\n'] (paras.filter fun p => !(strip p).isEmpty)

/-- The warning text of line 54: `f"Erro ao processar {basename}: {e}"`. -/
def warnMsg (basename msg : Str) : Str :=
  "Erro ao processar ".toList ++ basename ++ ": ".toList ++ msg

/-- Lines 39–55, `process_file`. `parsed` is the outcome of the external
parser call on this file. Returns the text handed to the caller together
with the warning issued, if any; an exception is converted into empty text
plus a warning instead of being propagated. -/
def process_file (basename : Str) (parsed : Except Str Str) : Str × Option Str :=
  match parsed with
  | .ok text => if text.isEmpty then ([], none) else (strip text, none)
  | .error msg => ([], some (warnMsg basename msg))

/-- A directory entry: the filename and the outcome the external parser
would produce for it. -/
structure FileInput where
  name : Str
  parsed : Except Str Str

deriving instance DecidableEq for Except

deriving instance DecidableEq for FileInput

/-- The two sidebar thresholds (lines 93–94). -/
structure RankerConfig where
  min_score : ℚ
  min_matches : Nat

deriving instance DecidableEq for RankerConfig

/-- One element of `results` (lines 130–137); field names are the dict keys. -/
structure ResultEntry where
  Arquivo : Str
  Caminho : Str
  Tipo : Str
  Texto : Str
  Score : ℚ
  Matches : Nat

deriving instance DecidableEq for ResultEntry

/-- How the analysis branch of `main` ends. -/
inductive RunOutcome where
  | noValidFiles : RunOutcome
  | noResults : RunOutcome
  | ranked : List ResultEntry → RunOutcome

deriving instance DecidableEq for RunOutcome

/-- Observable trace of one run: the outcome, the values sent to the
progress bar in order, and the warnings issued in order. -/
structure RunTrace where
  outcome : RunOutcome
  progress : List ℚ
  warnings : List Str

deriving instance DecidableEq for RunTrace

/-- Line 110: `f.lower().endswith(('.pdf', '.docx'))`. -/
def isValidFile (name : Str) : Bool :=
  endsWith ".pdf".toList (lowerStr name) || endsWith ".docx".toList (lowerStr name)

/-- Line 119: `"pdf" if filename.lower().endswith('.pdf') else "docx"`. -/
def fileTypeOf (name : Str) : Str :=
  if endsWith ".pdf".toList (lowerStr name) then "pdf".toList else "docx".toList

/-- `os.path.join(folder_path, filename)` (line 118), for slash-free names. -/
def pathJoin (folder name : Str) : Str := folder ++ '/' :: name

/-- The result entry the iteration for `f` appends, if any: `none` when the
text is empty, the match count is below `min_matches`, or the score is below
`min_score`. -/
def entryOf {E : Type} (encode : Str → E) (cosSim : E → E → ℚ) (kws : List Str)
    (cfg : RankerConfig) (folder : Str) (f : FileInput) : Option ResultEntry :=
  let text := (process_file f.name f.parsed).1
  if text.isEmpty then none
  else
    let ms := analyze_resume encode cosSim text kws
    if ms.1 < cfg.min_matches then none
    else if cfg.min_score ≤ ms.2 then
      some ⟨f.name, pathJoin folder f.name, fileTypeOf f.name, text, ms.2, ms.1⟩
    else none

/-- Whether the iteration for `f` reaches the progress update of line 139,
i.e. neither `continue` (lines 123 and 127) fires. -/
def reportsProgress (kws : List Str) (cfg : RankerConfig) (f : FileInput) : Bool :=
  let text := (process_file f.name f.parsed).1
  !text.isEmpty && !decide (countMatches kws text < cfg.min_matches)

/-- The loop of lines 117–139 over the remaining files, where `i` is the
index of the first remaining file and `n = len(valid_files)`. Returns the
appended result entries, the reported progress fractions and the warnings,
each in order of occurrence. -/
def batchLoop {E : Type} (encode : Str → E) (cosSim : E → E → ℚ) (kws : List Str)
    (cfg : RankerConfig) (folder : Str) (n : Nat) :
    Nat → List FileInput → List ResultEntry × List ℚ × List Str
  | _, [] => ([], [], [])
  | i, f :: fs =>
    let pf := process_file f.name f.parsed
    let rest := batchLoop encode cosSim kws cfg folder n (i + 1) fs
    if pf.1.isEmpty then
      (rest.1, rest.2.1, pf.2.toList ++ rest.2.2)
    else
      let ms := analyze_resume encode cosSim pf.1 kws
      if ms.1 < cfg.min_matches then
        (rest.1, rest.2.1, pf.2.toList ++ rest.2.2)
      else
        let newEntries : List ResultEntry :=
          if cfg.min_score ≤ ms.2 then
            [⟨f.name, pathJoin folder f.name, fileTypeOf f.name, pf.1, ms.2, ms.1⟩]
          else []
        (newEntries ++ rest.1, ((i + 1 : ℚ) / (n : ℚ)) :: rest.2.1, pf.2.toList ++ rest.2.2)

/-- The comparator realising Python's stable
`sorted(results, key=lambda x: x['Score'], reverse=True)`:
`a` may stand before `b` exactly when `a.Score ≥ b.Score`. -/
def scoreGe (a b : ResultEntry) : Bool := decide (b.Score ≤ a.Score)

/-- Line 145: stable sort of the surviving results by score, descending. -/
def sortResults (l : List ResultEntry) : List ResultEntry := List.mergeSort l scoreGe

/-- Line 110: the files of the listing that pass the extension filter. -/
def validFilesOf (files : List FileInput) : List FileInput :=
  files.filter fun f => isValidFile f.name

/-- Lines 104–158: the analysis branch of `main`, from the directory listing
to the final outcome. `files` is `os.listdir(folder_path)` paired with each
file's parse outcome. -/
def mainRun {E : Type} (encode : Str → E) (cosSim : E → E → ℚ)
    (job_title job_desc : Str) (cfg : RankerConfig) (folder : Str)
    (files : List FileInput) : RunTrace :=
  let kws := job_keywords job_title job_desc
  let valid := validFilesOf files
  if valid.isEmpty then ⟨.noValidFiles, [], []⟩
  else
    let r := batchLoop encode cosSim kws cfg folder valid.length 0 valid
    if r.1.isEmpty then ⟨.noResults, 0 :: r.2.1, r.2.2⟩
    else ⟨.ranked (sortResults r.1), 0 :: r.2.1, r.2.2⟩

/-- The ranked entries of a trace (empty unless a ranking was displayed). -/
def rankedResults (t : RunTrace) : List ResultEntry :=
  match t.outcome with
  | .ranked rs => rs
  | _ => []

/-- The `results` list accumulated by the loop (before sorting) for a run. -/
def loopResults {E : Type} (encode : Str → E) (cosSim : E → E → ℚ)
    (job_title job_desc : Str) (cfg : RankerConfig) (folder : Str)
    (files : List FileInput) : List ResultEntry :=
  (batchLoop encode cosSim (job_keywords job_title job_desc) cfg folder
    (validFilesOf files).length 0 (validFilesOf files)).1

/-! ### Substring and match-count lemmas -/

theorem substrOf_iff (k t : Str) : substrOf k t = true ↔ k <:+: t := by
  constructor
  · intro h
    rcases List.any_eq_true.mp h with ⟨i, _, hpre⟩
    exact List.infix_iff_prefix_suffix.mpr
      ⟨t.drop i, List.isPrefixOf_iff_prefix.mp hpre, List.drop_suffix i t⟩
  · intro h
    rcases h with ⟨s, u, rfl⟩
    apply List.any_eq_true.mpr
    refine ⟨s.length, List.mem_range.mpr ?_, ?_⟩
    · simp only [List.length_append]
      omega
    · rw [List.append_assoc, List.drop_left]
      exact List.isPrefixOf_iff_prefix.mpr (List.prefix_append k u)

theorem sum_map_one (l : List Str) : (l.map fun _ => (1 : Nat)).sum = l.length := by
  induction l with
  | nil => rfl
  | cons x xs ih => simp [ih, Nat.add_comm]

theorem countMatches_eq_countP (kws : List Str) (text : Str) :
    countMatches kws text = kws.countP fun k => substrOf k text := by
  unfold countMatches
  rw [List.countP_eq_length_filter, sum_map_one]

theorem substrOf_eq_decide (text : Str) :
    (fun k => substrOf k text) = fun k => decide (k <:+: text) := by
  funext k
  by_cases h : k <:+: text
  · simp [(substrOf_iff k text).mpr h, h]
  · have hb : substrOf k text = false := by
      cases hb : substrOf k text
      · rfl
      · exact absurd ((substrOf_iff k text).mp hb) h
    simp [hb, h]

/-- C10: the match count equals the number of positions of the keyword list
whose keyword occurs as a substring of the text, each position contributing
at most 1, so it never exceeds the length of the keyword list. -/
theorem C10_match_count_is_per_keyword (kws : List Str) (text : Str) :
    countMatches kws text = (kws.countP fun k => decide (k <:+: text)) ∧
    countMatches kws text ≤ kws.length := by
  have h1 := countMatches_eq_countP kws text
  constructor
  · rw [h1, substrOf_eq_decide]
  · rw [h1]
    exact List.countP_le_length _

/-! ### Keyword extraction (C3) -/

theorem runsAux_all_p (p : Char → Bool) :
    ∀ (s acc : Str), (∀ c ∈ acc, p c = true) →
      ∀ r ∈ runsAux p s acc, ∀ c ∈ r, p c = true := by
  intro s
  induction s with
  | nil =>
    intro acc hacc r hr
    simp only [runsAux] at hr
    split at hr
    · simp at hr
    · simp only [List.mem_singleton] at hr
      subst hr
      intro c hc
      exact hacc c (List.mem_reverse.mp hc)
  | cons x xs ih =>
    intro acc hacc r hr
    simp only [runsAux] at hr
    split at hr
    · rename_i hx
      refine ih (x :: acc) ?_ r hr
      intro c hc
      rcases List.mem_cons.mp hc with h | h
      · subst h; exact hx
      · exact hacc c h
    · split at hr
      · exact ih [] (by simp) r hr
      · rcases List.mem_cons.mp hr with h | h
        · subst h
          intro c hc
          exact hacc c (List.mem_reverse.mp hc)
        · exact ih [] (by simp) r h

/-- C3 counterexample: for `title = "t"`, `description = "ab,cdef"`, the code
keeps `"cdef"` (a maximal word-character run of length ≥ 4) while the claim's
whitespace-delimited tokenisation would keep the token `"ab,cdef"`. -/
theorem C3_counterexample :
    job_keywords "t".toList "ab,cdef".toList ≠
      specKeywords "t".toList "ab,cdef".toList := by decide

/-- C3 (amended): the profile keyword list has the title as its first element,
followed by the maximal word-character (letter, digit or underscore) runs of
the description of length ≥ 4 — not the whitespace-delimited tokens — in
first-occurrence order, duplicates retained; in particular every keyword
after the title has length ≥ 4 and consists of word characters only. -/
theorem C3_keywords_amended (job_title job_desc : Str) :
    job_keywords job_title job_desc =
      job_title :: ((runsOf isWordChar job_desc).filter fun w => 4 ≤ w.length) ∧
    ∀ w ∈ (job_keywords job_title job_desc).tail,
      4 ≤ w.length ∧ ∀ c ∈ w, isWordChar c = true := by
  have hfilter :
      ((runsOf isWordChar job_desc).filter fun w => decide (4 ≤ w.length)).filter
          (fun w => decide (3 < w.length)) =
        (runsOf isWordChar job_desc).filter fun w => decide (4 ≤ w.length) := by
    apply List.filter_eq_self.mpr
    intro a ha
    have h4 : 4 ≤ a.length := of_decide_eq_true (List.mem_filter.mp ha).2
    exact decide_eq_true (by omega)
  constructor
  · show job_title :: ((findallWord4 job_desc).filter fun w => decide (3 < w.length)) = _
    unfold findallWord4
    rw [hfilter]
  · intro w hw
    have hw' : w ∈ (findallWord4 job_desc).filter fun w => decide (3 < w.length) := hw
    have hmem := List.mem_filter.mp hw'
    have hmem2 := List.mem_filter.mp hmem.1
    refine ⟨of_decide_eq_true hmem2.2, ?_⟩
    exact runsAux_all_p isWordChar job_desc [] (by simp) w hmem2.1

/-- C7 counterexample: the string passed to the embedding model is the Python
string representation of the keyword list, not the concatenation of the
keywords; with keywords `["ab", "cd"]` and an embedding abstraction that
distinguishes the two strings, the similarity computed by `analyze_resume`
differs from the one the claim describes. -/
theorem C7_counterexample :
    (analyze_resume (fun s => s) (fun p _ => if p = "abcd".toList then (1 : ℚ) else 0)
        "xy".toList ["ab".toList, "cd".toList]).2 ≠
      (fun p _ => if p = "abcd".toList then (1 : ℚ) else 0)
        (specProfileText ["ab".toList, "cd".toList]) "xy".toList := by decide

/-! ### Loop characterisation lemmas -/

theorem analyze_resume_fst {E : Type} (encode : Str → E) (cosSim : E → E → ℚ)
    (text : Str) (kws : List Str) :
    (analyze_resume encode cosSim text kws).1 = countMatches kws text := rfl

theorem analyze_resume_snd {E : Type} (encode : Str → E) (cosSim : E → E → ℚ)
    (text : Str) (kws : List Str) :
    (analyze_resume encode cosSim text kws).2 =
      cosSim (encode (job_text_of kws)) (encode text) := rfl

theorem batchLoop_results {E : Type} (encode : Str → E) (cosSim : E → E → ℚ)
    (kws : List Str) (cfg : RankerConfig) (folder : Str) (n : Nat) :
    ∀ (i : Nat) (fs : List FileInput),
      (batchLoop encode cosSim kws cfg folder n i fs).1 =
        fs.filterMap (entryOf encode cosSim kws cfg folder) := by
  intro i fs
  induction fs generalizing i with
  | nil => rfl
  | cons f fs ih =>
    simp only [batchLoop, List.filterMap_cons, entryOf]
    by_cases h1 : ((process_file f.name f.parsed).1).isEmpty
    · simp [h1, ih]
    · by_cases h2 :
          (analyze_resume encode cosSim (process_file f.name f.parsed).1 kws).1 <
            cfg.min_matches
      · simp [h1, h2, ih]
      · by_cases h3 :
            cfg.min_score ≤
              (analyze_resume encode cosSim (process_file f.name f.parsed).1 kws).2
        · simp [h1, h2, h3, ih]
        · simp [h1, h2, h3, ih]

theorem batchLoop_warnings {E : Type} (encode : Str → E) (cosSim : E → E → ℚ)
    (kws : List Str) (cfg : RankerConfig) (folder : Str) (n : Nat) :
    ∀ (i : Nat) (fs : List FileInput),
      (batchLoop encode cosSim kws cfg folder n i fs).2.2 =
        fs.filterMap fun f => (process_file f.name f.parsed).2 := by
  intro i fs
  induction fs generalizing i with
  | nil => rfl
  | cons f fs ih =>
    simp only [batchLoop, List.filterMap_cons]
    by_cases h1 : ((process_file f.name f.parsed).1).isEmpty
    · cases hw : (process_file f.name f.parsed).2 <;> simp [h1, hw, ih]
    · by_cases h2 :
          (analyze_resume encode cosSim (process_file f.name f.parsed).1 kws).1 <
            cfg.min_matches
      · cases hw : (process_file f.name f.parsed).2 <;> simp [h1, h2, hw, ih]
      · cases hw : (process_file f.name f.parsed).2 <;> simp [h1, h2, hw, ih]

theorem batchLoop_progress_length {E : Type} (encode : Str → E) (cosSim : E → E → ℚ)
    (kws : List Str) (cfg : RankerConfig) (folder : Str) (n : Nat) :
    ∀ (i : Nat) (fs : List FileInput),
      (batchLoop encode cosSim kws cfg folder n i fs).2.1.length =
        (fs.filter (reportsProgress kws cfg)).length := by
  intro i fs
  induction fs generalizing i with
  | nil => rfl
  | cons f fs ih =>
    simp only [batchLoop]
    by_cases h1 : ((process_file f.name f.parsed).1).isEmpty
    · have hrep : reportsProgress kws cfg f = false := by
        simp [reportsProgress, h1]
      simp [h1, ih, List.filter_cons, hrep]
    · by_cases h2 :
          (analyze_resume encode cosSim (process_file f.name f.parsed).1 kws).1 <
            cfg.min_matches
      · have h2' : countMatches kws (process_file f.name f.parsed).1 < cfg.min_matches := h2
        have hrep : reportsProgress kws cfg f = false := by
          simp [reportsProgress, h1, h2']
        simp [h1, h2, ih, List.filter_cons, hrep]
      · have h2' : ¬ countMatches kws (process_file f.name f.parsed).1 < cfg.min_matches := h2
        have hrep : reportsProgress kws cfg f = true := by
          simp [reportsProgress, h1, h2']
        simp [h1, h2, ih, List.filter_cons, hrep, Nat.add_comm]

theorem batchLoop_progress_enumFrom {E : Type} (encode : Str → E) (cosSim : E → E → ℚ)
    (kws : List Str) (cfg : RankerConfig) (folder : Str) (n : Nat) :
    ∀ (i : Nat) (fs : List FileInput),
      (batchLoop encode cosSim kws cfg folder n i fs).2.1 =
        ((List.enumFrom i fs).filter fun p => reportsProgress kws cfg p.2).map
          fun p => ((p.1 : ℚ) + 1) / (n : ℚ) := by
  intro i fs
  induction fs generalizing i with
  | nil => rfl
  | cons f fs ih =>
    have henum : List.enumFrom i (f :: fs) = (i, f) :: List.enumFrom (i + 1) fs := by
      simp [List.enumFrom]
    rw [henum]
    simp only [batchLoop, List.filter_cons]
    by_cases h1 : ((process_file f.name f.parsed).1).isEmpty
    · have hrep : reportsProgress kws cfg f = false := by
        simp [reportsProgress, h1]
      rw [if_pos h1]
      simp [hrep, ih]
    · rw [if_neg h1]
      by_cases h2 :
          (analyze_resume encode cosSim (process_file f.name f.parsed).1 kws).1 <
            cfg.min_matches
      · have h2' : countMatches kws (process_file f.name f.parsed).1 < cfg.min_matches := h2
        have hrep : reportsProgress kws cfg f = false := by
          simp [reportsProgress, h1, h2']
        rw [if_pos h2]
        simp [hrep, ih]
      · have h2' : ¬ countMatches kws (process_file f.name f.parsed).1 < cfg.min_matches := h2
        have hrep : reportsProgress kws cfg f = true := by
          simp [reportsProgress, h1, h2']
        rw [if_neg h2]
        simp [hrep, ih]

theorem batchLoop_progress_bounds {E : Type} (encode : Str → E) (cosSim : E → E → ℚ)
    (kws : List Str) (cfg : RankerConfig) (folder : Str) (n : Nat) (hn : 0 < n) :
    ∀ (i : Nat) (fs : List FileInput),
      ∀ q ∈ (batchLoop encode cosSim kws cfg folder n i fs).2.1,
        (i : ℚ) / (n : ℚ) < q ∧ q ≤ ((i : ℚ) + (fs.length : ℚ)) / (n : ℚ) := by
  have hn' : (0 : ℚ) < (n : ℚ) := by exact_mod_cast hn
  intro i fs
  induction fs generalizing i with
  | nil =>
    intro q hq
    simp [batchLoop] at hq
  | cons f fs ih =>
    intro q hq
    have hstep : (i : ℚ) / (n : ℚ) < ((i : ℚ) + 1) / (n : ℚ) := by
      rw [div_lt_div_iff_of_pos_right hn']
      exact lt_add_one _
    have hmono : (((i : ℚ) + 1) + (fs.length : ℚ)) / (n : ℚ) =
        ((i : ℚ) + ((fs.length : ℚ) + 1)) / (n : ℚ) := by ring_nf
    simp only [batchLoop] at hq
    by_cases h1 : ((process_file f.name f.parsed).1).isEmpty
    · rw [if_pos h1] at hq
      obtain ⟨hlo, hhi⟩ := ih (i + 1) q hq
      push_cast at hlo hhi
      refine ⟨lt_trans hstep hlo, ?_⟩
      rw [List.length_cons]
      push_cast
      rw [← hmono]
      exact hhi
    · rw [if_neg h1] at hq
      by_cases h2 :
          (analyze_resume encode cosSim (process_file f.name f.parsed).1 kws).1 <
            cfg.min_matches
      · rw [if_pos h2] at hq
        obtain ⟨hlo, hhi⟩ := ih (i + 1) q hq
        push_cast at hlo hhi
        refine ⟨lt_trans hstep hlo, ?_⟩
        rw [List.length_cons]
        push_cast
        rw [← hmono]
        exact hhi
      · rw [if_neg h2] at hq
        rcases List.mem_cons.mp hq with hq | hq
        · subst hq
          refine ⟨hstep, ?_⟩
          rw [List.length_cons]
          push_cast
          rw [div_le_div_iff_of_pos_right hn']
          have h0 : (0 : ℚ) ≤ (fs.length : ℚ) := by positivity
          linarith
        · obtain ⟨hlo, hhi⟩ := ih (i + 1) q hq
          push_cast at hlo hhi
          refine ⟨lt_trans hstep hlo, ?_⟩
          rw [List.length_cons]
          push_cast
          rw [← hmono]
          exact hhi

theorem batchLoop_progress_chain {E : Type} (encode : Str → E) (cosSim : E → E → ℚ)
    (kws : List Str) (cfg : RankerConfig) (folder : Str) (n : Nat) (hn : 0 < n) :
    ∀ (i : Nat) (fs : List FileInput),
      List.Chain' (· < ·) (batchLoop encode cosSim kws cfg folder n i fs).2.1 := by
  intro i fs
  induction fs generalizing i with
  | nil => simp [batchLoop]
  | cons f fs ih =>
    simp only [batchLoop]
    by_cases h1 : ((process_file f.name f.parsed).1).isEmpty
    · rw [if_pos h1]
      exact ih (i + 1)
    · rw [if_neg h1]
      by_cases h2 :
          (analyze_resume encode cosSim (process_file f.name f.parsed).1 kws).1 <
            cfg.min_matches
      · rw [if_pos h2]
        exact ih (i + 1)
      · rw [if_neg h2]
        apply List.chain'_cons'.mpr
        refine ⟨?_, ih (i + 1)⟩
        intro y hy
        have hmem := List.mem_of_mem_head? hy
        have := (batchLoop_progress_bounds encode cosSim kws cfg folder n hn (i + 1) fs
          y hmem).1
        push_cast at this
        exact this

/-! ### Entry and sorting lemmas -/

theorem entryOf_some {E : Type} (encode : Str → E) (cosSim : E → E → ℚ)
    (kws : List Str) (cfg : RankerConfig) (folder : Str) (f : FileInput)
    (e : ResultEntry) (h : entryOf encode cosSim kws cfg folder f = some e) :
    e.Arquivo = f.name ∧ e.Texto = (process_file f.name f.parsed).1 ∧
    e.Texto.isEmpty = false ∧ e.Matches = countMatches kws e.Texto ∧
    e.Score = cosSim (encode (job_text_of kws)) (encode e.Texto) ∧
    cfg.min_matches ≤ e.Matches ∧ cfg.min_score ≤ e.Score := by
  simp only [entryOf] at h
  split at h
  · exact absurd h (by simp)
  · split at h
    · exact absurd h (by simp)
    · split at h
      · rename_i h1 h2 h3
        injection h with h'
        subst h'
        refine ⟨rfl, rfl, ?_, rfl, rfl, ?_, h3⟩
        · exact Bool.of_not_eq_true h1
        · exact Nat.le_of_not_lt h2
      · exact absurd h (by simp)

theorem scoreGe_trans : ∀ (a b c : ResultEntry),
    scoreGe a b = true → scoreGe b c = true → scoreGe a c = true := by
  intro a b c hab hbc
  exact decide_eq_true (le_trans (of_decide_eq_true hbc) (of_decide_eq_true hab))

theorem scoreGe_total : ∀ (a b : ResultEntry), (scoreGe a b || scoreGe b a) = true := by
  intro a b
  rcases le_total a.Score b.Score with h | h
  · have hba : scoreGe b a = true := decide_eq_true h
    simp [hba]
  · have hab : scoreGe a b = true := decide_eq_true h
    simp [hab]

theorem sortResults_perm (l : List ResultEntry) : (sortResults l).Perm l :=
  List.mergeSort_perm l scoreGe

theorem sortResults_pairwise (l : List ResultEntry) :
    (sortResults l).Pairwise fun a b => b.Score ≤ a.Score := by
  have h := List.sorted_mergeSort scoreGe_trans scoreGe_total l
  exact h.imp fun hab => of_decide_eq_true hab

theorem sortResults_filter_score (l : List ResultEntry) (q : ℚ) :
    (sortResults l).filter (fun e => decide (e.Score = q)) =
      l.filter fun e => decide (e.Score = q) := by
  have hpw : (l.filter fun e => decide (e.Score = q)).Pairwise
      fun a b => scoreGe a b = true := by
    apply List.pairwise_of_forall_mem_list
    intro a ha b hb
    have ha' : a.Score = q := of_decide_eq_true (List.mem_filter.mp ha).2
    have hb' : b.Score = q := of_decide_eq_true (List.mem_filter.mp hb).2
    exact decide_eq_true (le_of_eq (hb'.trans ha'.symm))
  have hsub : (l.filter fun e => decide (e.Score = q)).Sublist (sortResults l) :=
    List.sublist_mergeSort scoreGe_trans scoreGe_total hpw (List.filter_sublist l)
  have hself : ((l.filter fun e => decide (e.Score = q)).filter
      fun e => decide (e.Score = q)) = l.filter fun e => decide (e.Score = q) :=
    List.filter_eq_self.mpr fun a ha => (List.mem_filter.mp ha).2
  have hsub2 : (l.filter fun e => decide (e.Score = q)).Sublist
      ((sortResults l).filter fun e => decide (e.Score = q)) := by
    have h2 := hsub.filter fun e => decide (e.Score = q)
    rwa [hself] at h2
  have hlen : ((sortResults l).filter fun e => decide (e.Score = q)).length =
      (l.filter fun e => decide (e.Score = q)).length :=
    ((sortResults_perm l).filter _).length_eq
  exact (hsub2.eq_of_length hlen.symm).symm

/-! ### Run-level lemmas -/

theorem mainRun_progress_eq {E : Type} (encode : Str → E) (cosSim : E → E → ℚ)
    (job_title job_desc : Str) (cfg : RankerConfig) (folder : Str)
    (files : List FileInput) :
    (mainRun encode cosSim job_title job_desc cfg folder files).progress =
      if (validFilesOf files).isEmpty then []
      else 0 :: (batchLoop encode cosSim (job_keywords job_title job_desc) cfg folder
        (validFilesOf files).length 0 (validFilesOf files)).2.1 := by
  simp only [mainRun]
  by_cases h : (validFilesOf files).isEmpty
  · rw [if_pos h, if_pos h]
  · rw [if_neg h, if_neg h]
    split <;> rfl

theorem mainRun_warnings_eq {E : Type} (encode : Str → E) (cosSim : E → E → ℚ)
    (job_title job_desc : Str) (cfg : RankerConfig) (folder : Str)
    (files : List FileInput) :
    (mainRun encode cosSim job_title job_desc cfg folder files).warnings =
      if (validFilesOf files).isEmpty then []
      else (validFilesOf files).filterMap fun f => (process_file f.name f.parsed).2 := by
  simp only [mainRun]
  by_cases h : (validFilesOf files).isEmpty
  · rw [if_pos h, if_pos h]
  · rw [if_neg h, if_neg h]
    rw [← batchLoop_warnings encode cosSim (job_keywords job_title job_desc) cfg folder
      (validFilesOf files).length 0 (validFilesOf files)]
    split <;> rfl

theorem mainRun_ranked_eq {E : Type} (encode : Str → E) (cosSim : E → E → ℚ)
    (job_title job_desc : Str) (cfg : RankerConfig) (folder : Str)
    (files : List FileInput) (rs : List ResultEntry)
    (h : (mainRun encode cosSim job_title job_desc cfg folder files).outcome =
      .ranked rs) :
    rs = sortResults (loopResults encode cosSim job_title job_desc cfg folder files) := by
  simp only [mainRun] at h
  split at h
  · exact absurd h (by simp)
  · split at h
    · exact absurd h (by simp)
    · injection h with h'
      exact h'.symm

theorem mem_loopResults {E : Type} (encode : Str → E) (cosSim : E → E → ℚ)
    (job_title job_desc : Str) (cfg : RankerConfig) (folder : Str)
    (files : List FileInput) (e : ResultEntry)
    (he : e ∈ loopResults encode cosSim job_title job_desc cfg folder files) :
    ∃ f ∈ validFilesOf files,
      entryOf encode cosSim (job_keywords job_title job_desc) cfg folder f = some e := by
  unfold loopResults at he
  rw [batchLoop_results] at he
  exact List.mem_filterMap.mp he

theorem rankedResults_mainRun {E : Type} (encode : Str → E) (cosSim : E → E → ℚ)
    (job_title job_desc : Str) (cfg : RankerConfig) (folder : Str)
    (files : List FileInput) :
    rankedResults (mainRun encode cosSim job_title job_desc cfg folder files) =
      sortResults ((validFilesOf files).filterMap
        (entryOf encode cosSim (job_keywords job_title job_desc) cfg folder)) := by
  simp only [mainRun]
  by_cases h1 : (validFilesOf files).isEmpty
  · rw [if_pos h1]
    have hnil : validFilesOf files = [] := List.isEmpty_iff.mp h1
    show ([] : List ResultEntry) = _
    rw [hnil]
    simp [sortResults]
  · rw [if_neg h1]
    by_cases h2 : (batchLoop encode cosSim (job_keywords job_title job_desc) cfg folder
        (validFilesOf files).length 0 (validFilesOf files)).1.isEmpty
    · rw [if_pos h2]
      have hnil := List.isEmpty_iff.mp h2
      rw [batchLoop_results] at hnil
      show ([] : List ResultEntry) = _
      rw [hnil]
      simp [sortResults]
    · rw [if_neg h2]
      show sortResults _ = _
      rw [batchLoop_results]

/-- A file whose processed text is empty contributes nothing to the ranked
results: the run on a listing containing it ranks exactly what the run on the
listing without it ranks. -/
theorem mainRun_skip {E : Type} (encode : Str → E) (cosSim : E → E → ℚ)
    (job_title job_desc : Str) (cfg : RankerConfig) (folder : Str)
    (l₁ l₂ : List FileInput) (f : FileInput)
    (h : (process_file f.name f.parsed).1 = []) :
    rankedResults (mainRun encode cosSim job_title job_desc cfg folder (l₁ ++ f :: l₂)) =
      rankedResults (mainRun encode cosSim job_title job_desc cfg folder (l₁ ++ l₂)) := by
  have hnone : entryOf encode cosSim (job_keywords job_title job_desc) cfg folder f =
      none := by
    simp [entryOf, h]
  rw [rankedResults_mainRun, rankedResults_mainRun]
  congr 1
  by_cases hv : isValidFile f.name
  · simp [validFilesOf, List.filter_append, List.filter_cons, hv,
      List.filterMap_append, List.filterMap_cons, hnone]
  · simp [validFilesOf, List.filter_append, List.filter_cons, hv,
      List.filterMap_append]

/-! ### The claims -/

/-- C1: for every run of the batch ranker, with any `min_matches` and
`min_score` values, every entry of the returned ranked result list satisfies
`Matches ≥ min_matches` and `Score ≥ min_score`. -/
theorem C1_threshold_invariant {E : Type} (encode : Str → E) (cosSim : E → E → ℚ)
    (job_title job_desc : Str) (cfg : RankerConfig) (folder : Str)
    (files : List FileInput) (rs : List ResultEntry)
    (h : (mainRun encode cosSim job_title job_desc cfg folder files).outcome =
      .ranked rs) :
    ∀ e ∈ rs, cfg.min_matches ≤ e.Matches ∧ cfg.min_score ≤ e.Score := by
  intro e he
  rw [mainRun_ranked_eq encode cosSim job_title job_desc cfg folder files rs h] at he
  have he' := ((sortResults_perm _).mem_iff).mp he
  obtain ⟨f, _, hef⟩ :=
    mem_loopResults encode cosSim job_title job_desc cfg folder files e he'
  have hinv := entryOf_some encode cosSim (job_keywords job_title job_desc) cfg folder
    f e hef
  exact ⟨hinv.2.2.2.2.2.1, hinv.2.2.2.2.2.2⟩

/-- C4: a document whose text extraction yields the empty string gets no score
and no entry in the result list, whatever the thresholds are: the ranked
results with the document present equal the ranked results without it. -/
theorem C4_empty_extraction_skipped {E : Type} (encode : Str → E)
    (cosSim : E → E → ℚ) (job_title job_desc : Str) (cfg : RankerConfig)
    (folder : Str) (l₁ l₂ : List FileInput) (f : FileInput)
    (h : (process_file f.name f.parsed).1 = []) :
    rankedResults (mainRun encode cosSim job_title job_desc cfg folder (l₁ ++ f :: l₂)) =
      rankedResults (mainRun encode cosSim job_title job_desc cfg folder (l₁ ++ l₂)) :=
  mainRun_skip encode cosSim job_title job_desc cfg folder l₁ l₂ f h

/-- C5: the returned ranked list is sorted by score in descending order
(adjacent entries are in non-increasing score order), and the subsequence of
entries having any fixed score is exactly the subsequence the loop
accumulated in enumeration order (stable sort). -/
theorem C5_sorted_and_stable {E : Type} (encode : Str → E) (cosSim : E → E → ℚ)
    (job_title job_desc : Str) (cfg : RankerConfig) (folder : Str)
    (files : List FileInput) (rs : List ResultEntry)
    (h : (mainRun encode cosSim job_title job_desc cfg folder files).outcome =
      .ranked rs) :
    List.Chain' (fun a b => b.Score ≤ a.Score) rs ∧
    ∀ q : ℚ, rs.filter (fun e => decide (e.Score = q)) =
      (loopResults encode cosSim job_title job_desc cfg folder files).filter
        fun e => decide (e.Score = q) := by
  have hrs := mainRun_ranked_eq encode cosSim job_title job_desc cfg folder files rs h
  constructor
  · rw [hrs]
    exact (sortResults_pairwise _).chain'
  · intro q
    rw [hrs]
    exact sortResults_filter_score _ q

/-- C7 (amended): the similarity score of every ranked entry equals the cosine
similarity between the embedding of the entry's extracted text and the
embedding of `job_text_of`, the Python string representation of the keyword
list (`f"{job_keywords}"`) — not the plain concatenation of the keywords. -/
theorem C7_similarity_amended {E : Type} (encode : Str → E) (cosSim : E → E → ℚ)
    (job_title job_desc : Str) (cfg : RankerConfig) (folder : Str)
    (files : List FileInput) (rs : List ResultEntry)
    (h : (mainRun encode cosSim job_title job_desc cfg folder files).outcome =
      .ranked rs) :
    ∀ e ∈ rs, e.Score =
      cosSim (encode (job_text_of (job_keywords job_title job_desc))) (encode e.Texto) := by
  intro e he
  rw [mainRun_ranked_eq encode cosSim job_title job_desc cfg folder files rs h] at he
  have he' := ((sortResults_perm _).mem_iff).mp he
  obtain ⟨f, _, hef⟩ :=
    mem_loopResults encode cosSim job_title job_desc cfg folder files e he'
  exact (entryOf_some encode cosSim (job_keywords job_title job_desc) cfg folder
    f e hef).2.2.2.2.1

/-- C8: a file whose parse raises is handled inside the extraction step — a
warning is issued and empty text returned — and the batch is unaffected: the
ranked results equal those of the run without the failing file, and (when the
file has a supported extension) its warning appears among the run's warnings. -/
theorem C8_extraction_failure_recovered {E : Type} (encode : Str → E)
    (cosSim : E → E → ℚ) (job_title job_desc : Str) (cfg : RankerConfig)
    (folder : Str) (l₁ l₂ : List FileInput) (fname msg : Str) :
    process_file fname (.error msg) = ([], some (warnMsg fname msg)) ∧
    rankedResults (mainRun encode cosSim job_title job_desc cfg folder
        (l₁ ++ ⟨fname, .error msg⟩ :: l₂)) =
      rankedResults (mainRun encode cosSim job_title job_desc cfg folder (l₁ ++ l₂)) ∧
    (isValidFile fname = true →
      warnMsg fname msg ∈ (mainRun encode cosSim job_title job_desc cfg folder
        (l₁ ++ ⟨fname, .error msg⟩ :: l₂)).warnings) := by
  refine ⟨rfl,
    mainRun_skip encode cosSim job_title job_desc cfg folder l₁ l₂ ⟨fname, .error msg⟩ rfl,
    ?_⟩
  intro hv
  rw [mainRun_warnings_eq]
  have hmem : (⟨fname, .error msg⟩ : FileInput) ∈
      validFilesOf (l₁ ++ ⟨fname, .error msg⟩ :: l₂) :=
    List.mem_filter.mpr ⟨by simp, hv⟩
  have hne : ¬ (validFilesOf (l₁ ++ ⟨fname, .error msg⟩ :: l₂)).isEmpty = true := by
    intro hc
    rw [List.isEmpty_iff.mp hc] at hmem
    exact absurd hmem (List.not_mem_nil _)
  rw [if_neg hne]
  exact List.mem_filterMap.mpr ⟨⟨fname, .error msg⟩, hmem, rfl⟩

/-- C9: when the folder's listing contains no file with a `.pdf` or `.docx`
extension (case-insensitive), the run stops with the no-candidates outcome,
reporting no progress, no warnings and an empty ranked result. -/
theorem C9_no_candidate_files {E : Type} (encode : Str → E) (cosSim : E → E → ℚ)
    (job_title job_desc : Str) (cfg : RankerConfig) (folder : Str)
    (files : List FileInput) (h : ∀ f ∈ files, isValidFile f.name = false) :
    mainRun encode cosSim job_title job_desc cfg folder files =
      ⟨.noValidFiles, [], []⟩ ∧
    rankedResults (mainRun encode cosSim job_title job_desc cfg folder files) = [] := by
  have hval : validFilesOf files = [] :=
    List.filter_eq_nil_iff.mpr fun f hf => by simp [h f hf]
  have hrun : mainRun encode cosSim job_title job_desc cfg folder files =
      ⟨.noValidFiles, [], []⟩ := by
    unfold mainRun
    rw [hval]
    rfl
  exact ⟨hrun, by rw [hrun]; rfl⟩

/-- C6 counterexample: two valid files where the first is skipped (its parse
fails, so `continue` fires before the progress update): only the initial 0 and
the fraction 2/2 after the second file are reported — the per-file fraction
1/2 is never reported, so progress is not reported after each file. -/
theorem C6_counterexample :
    (mainRun (fun _ => ()) (fun _ _ => (1 : ℚ)/2) "abcd".toList [] ⟨0, 1⟩ "f".toList
      [⟨"a.pdf".toList, .error "boom".toList⟩,
       ⟨"b.pdf".toList, .ok "abcd".toList⟩]).progress = [0, 1] ∧
    ¬ ((1 : ℚ)/2 ∈ (mainRun (fun _ => ()) (fun _ _ => (1 : ℚ)/2) "abcd".toList []
      ⟨0, 1⟩ "f".toList
      [⟨"a.pdf".toList, .error "boom".toList⟩,
       ⟨"b.pdf".toList, .ok "abcd".toList⟩]).progress) := by
  have hp : (mainRun (fun _ => ()) (fun _ _ => (1 : ℚ)/2) "abcd".toList [] ⟨0, 1⟩
      "f".toList
      [⟨"a.pdf".toList, .error "boom".toList⟩,
       ⟨"b.pdf".toList, .ok "abcd".toList⟩]).progress = [0, 1] := by
    with_unfolding_all rfl
  refine ⟨hp, ?_⟩
  rw [hp]
  with_unfolding_all decide

/-- C6 (amended): on a run with at least one qualifying file, the progress bar
is initialised to 0 and then updated to `(i+1)/n` only after each file whose
extracted text is non-empty and whose match count passes `min_matches`
(skipped files report nothing): the whole reported sequence is exactly 0
followed by the fractions `(i+1)/n` of the reporting files `i`, in order. The
sequence is strictly increasing, all its values lie in `[0, 1]`, its length is
one more than the number of files reaching the update, and it reaches the
value 1 exactly when the last qualifying file is not skipped. -/
theorem C6_progress_amended {E : Type} (encode : Str → E) (cosSim : E → E → ℚ)
    (job_title job_desc : Str) (cfg : RankerConfig) (folder : Str)
    (files : List FileInput)
    (h : (validFilesOf files).isEmpty = false) :
    (mainRun encode cosSim job_title job_desc cfg folder files).progress.head? =
      some 0 ∧
    List.Chain' (· < ·)
      (mainRun encode cosSim job_title job_desc cfg folder files).progress ∧
    (∀ q ∈ (mainRun encode cosSim job_title job_desc cfg folder files).progress,
      0 ≤ q ∧ q ≤ 1) ∧
    (mainRun encode cosSim job_title job_desc cfg folder files).progress.length =
      1 + ((validFilesOf files).filter
        (reportsProgress (job_keywords job_title job_desc) cfg)).length ∧
    (mainRun encode cosSim job_title job_desc cfg folder files).progress =
      0 :: (((validFilesOf files).enum.filter
          fun p => reportsProgress (job_keywords job_title job_desc) cfg p.2).map
        fun p => ((p.1 : ℚ) + 1) / ((validFilesOf files).length : ℚ)) ∧
    ∀ flast, (validFilesOf files).getLast? = some flast →
      (((1 : ℚ) ∈ (mainRun encode cosSim job_title job_desc cfg folder files).progress) ↔
        reportsProgress (job_keywords job_title job_desc) cfg flast = true) := by
  have hne : ¬ (validFilesOf files).isEmpty = true := by
    rw [h]
    exact Bool.false_ne_true
  have hvne : validFilesOf files ≠ [] := fun hc => hne (by rw [hc]; rfl)
  have hnpos : 0 < (validFilesOf files).length := List.length_pos.mpr hvne
  have hprog := mainRun_progress_eq encode cosSim job_title job_desc cfg folder files
  rw [if_neg hne] at hprog
  have hbounds := batchLoop_progress_bounds encode cosSim
    (job_keywords job_title job_desc) cfg folder (validFilesOf files).length hnpos 0
    (validFilesOf files)
  have hq01 : ∀ q ∈ (batchLoop encode cosSim (job_keywords job_title job_desc) cfg
      folder (validFilesOf files).length 0 (validFilesOf files)).2.1,
      0 < q ∧ q ≤ 1 := by
    intro q hq
    obtain ⟨hlo, hhi⟩ := hbounds q hq
    have hcast : (((validFilesOf files).length : ℚ)) ≠ 0 := by
      exact_mod_cast hnpos.ne'
    constructor
    · simpa using hlo
    · calc q ≤ ((0 : ℚ) + ((validFilesOf files).length : ℚ)) /
          ((validFilesOf files).length : ℚ) := by simpa using hhi
        _ = 1 := by rw [zero_add, div_self hcast]
  have hcast : (((validFilesOf files).length : ℚ)) ≠ 0 := by
    exact_mod_cast hnpos.ne'
  have hchar : (mainRun encode cosSim job_title job_desc cfg folder files).progress =
      0 :: (((validFilesOf files).enum.filter
          fun p => reportsProgress (job_keywords job_title job_desc) cfg p.2).map
        fun p => ((p.1 : ℚ) + 1) / ((validFilesOf files).length : ℚ)) := by
    rw [hprog, batchLoop_progress_enumFrom]
    rfl
  refine ⟨?_, ?_, ?_, ?_, hchar, ?_⟩
  · rw [hprog]
    rfl
  · rw [hprog]
    apply List.chain'_cons'.mpr
    refine ⟨?_, batchLoop_progress_chain encode cosSim (job_keywords job_title job_desc)
      cfg folder (validFilesOf files).length hnpos 0 (validFilesOf files)⟩
    intro y hy
    exact (hq01 y (List.mem_of_mem_head? hy)).1
  · rw [hprog]
    intro q hq
    rcases List.mem_cons.mp hq with rfl | hq
    · norm_num
    · exact ⟨le_of_lt (hq01 q hq).1, (hq01 q hq).2⟩
  · rw [hprog]
    simp only [List.length_cons]
    rw [batchLoop_progress_length]
    omega
  · intro flast hlast
    constructor
    · intro h1
      rw [hchar] at h1
      rcases List.mem_cons.mp h1 with h0 | hmem
      · exact absurd h0 (by norm_num)
      · obtain ⟨p, hpfil, hpval⟩ := List.mem_map.mp hmem
        have hpf := List.mem_filter.mp hpfil
        have hidx := List.mem_enum_iff_getElem?.mp hpf.1
        have heq : ((p.1 : ℚ) + 1) = ((validFilesOf files).length : ℚ) :=
          (div_eq_one_iff_eq hcast).mp hpval
        have hnat : p.1 + 1 = (validFilesOf files).length := by exact_mod_cast heq
        have hp1 : p.1 = (validFilesOf files).length - 1 := by omega
        rw [hp1, ← List.getLast?_eq_getElem?, hlast] at hidx
        injection hidx with h'
        rw [h']
        exact hpf.2
    · intro hrep
      rw [hchar]
      apply List.mem_cons_of_mem
      apply List.mem_map.mpr
      refine ⟨((validFilesOf files).length - 1, flast), ?_, ?_⟩
      · apply List.mem_filter.mpr
        refine ⟨?_, hrep⟩
        apply List.mem_enum_iff_getElem?.mpr
        rw [← List.getLast?_eq_getElem?]
        exact hlast
      · show ((((validFilesOf files).length - 1 : Nat) : ℚ) + 1) /
          ((validFilesOf files).length : ℚ) = 1
        rw [div_eq_one_iff_eq hcast, Nat.cast_sub hnpos]
        ring

/-- C2 counterexample: one PDF whose extracted text contains the job title 3
times, `min_matches = 1`, `min_score = 0`, empty description: the single
ranked entry has `Matches = 1` (the title keyword counts once however often
it occurs), not `≥ 3`. -/
theorem C2_counterexample :
    countOccurrences "abcd".toList (strip "abcd abcd abcd".toList) = 3 ∧
    (rankedResults (mainRun (fun _ => ()) (fun _ _ => (1 : ℚ)) "abcd".toList []
        ⟨0, 1⟩ "f".toList
        [⟨"cv.pdf".toList, .ok "abcd abcd abcd".toList⟩])).map ResultEntry.Matches =
      [1] ∧
    ¬ (3 : Nat) ≤ 1 := by
  refine ⟨by decide, ?_, by decide⟩
  with_unfolding_all rfl

/-- C2 (amended): a folder with exactly one PDF whose extracted text contains
the job title (here: 3 occurrences) and no DOCX files, with `min_matches = 1`
and `min_score = 0`, yields exactly one ranked entry — provided the
document's similarity score is nonnegative — and that entry's match count is
at least 1 (not at least 3: each keyword contributes at most once). -/
theorem C2_single_pdf_amended {E : Type} (encode : Str → E) (cosSim : E → E → ℚ)
    (job_title job_desc : Str) (folder : Str) (fname raw : Str)
    (htitle : job_title ≠ [])
    (hocc : countOccurrences job_title (strip raw) = 3)
    (hpdf : endsWith ".pdf".toList (lowerStr fname) = true)
    (hscore : 0 ≤ cosSim (encode (job_text_of (job_keywords job_title job_desc)))
      (encode (strip raw))) :
    (rankedResults (mainRun encode cosSim job_title job_desc ⟨0, 1⟩ folder
      [⟨fname, .ok raw⟩])).length = 1 ∧
    ∀ e ∈ rankedResults (mainRun encode cosSim job_title job_desc ⟨0, 1⟩ folder
      [⟨fname, .ok raw⟩]), 1 ≤ e.Matches := by
  have hsub : substrOf job_title (strip raw) = true := by
    have hfilter_ne :
        ((List.range ((strip raw).length + 1)).filter
          fun i => job_title.isPrefixOf ((strip raw).drop i)) ≠ [] := by
      intro hc
      unfold countOccurrences at hocc
      rw [hc] at hocc
      simp at hocc
    obtain ⟨i, hi⟩ := List.exists_mem_of_ne_nil _ hfilter_ne
    have h2 := List.mem_filter.mp hi
    exact List.any_eq_true.mpr ⟨i, h2.1, h2.2⟩
  have hinf : job_title <:+: strip raw := (substrOf_iff _ _).mp hsub
  have hstrip_ne : strip raw ≠ [] := by
    intro hc
    rw [hc] at hinf
    rcases hinf with ⟨s, u, hsu⟩
    simp only [List.append_eq_nil] at hsu
    exact htitle hsu.1.2
  have hstrip_empty : (strip raw).isEmpty = false := by
    cases hs : (strip raw).isEmpty
    · rfl
    · exact absurd (List.isEmpty_iff.mp hs) hstrip_ne
  have hraw_empty : raw.isEmpty = false := by
    cases hr : raw.isEmpty
    · rfl
    · exfalso
      have hrnil : raw = [] := List.isEmpty_iff.mp hr
      rw [hrnil] at hstrip_ne
      exact hstrip_ne rfl
  have hpf : (process_file fname (.ok raw)).1 = strip raw := by
    simp [process_file, hraw_empty]
  have hvfile : isValidFile fname = true := by
    unfold isValidFile
    rw [hpdf]
    rfl
  have hm1 : 1 ≤ countMatches (job_keywords job_title job_desc) (strip raw) := by
    rw [countMatches_eq_countP]
    have hpos : 0 < List.countP (fun k => substrOf k (strip raw))
        (job_keywords job_title job_desc) :=
      List.countP_pos_iff.mpr ⟨job_title, List.mem_cons_self _ _, hsub⟩
    omega
  have hc1 : ¬ ((analyze_resume encode cosSim (strip raw)
      (job_keywords job_title job_desc)).1 < (1 : Nat)) := by
    rw [analyze_resume_fst]
    omega
  have hc2 : (0 : ℚ) ≤ (analyze_resume encode cosSim (strip raw)
      (job_keywords job_title job_desc)).2 := by
    rw [analyze_resume_snd]
    exact hscore
  have hentry : entryOf encode cosSim (job_keywords job_title job_desc) ⟨0, 1⟩ folder
      ⟨fname, .ok raw⟩ =
      some ⟨fname, pathJoin folder fname, fileTypeOf fname, strip raw,
        cosSim (encode (job_text_of (job_keywords job_title job_desc)))
          (encode (strip raw)),
        countMatches (job_keywords job_title job_desc) (strip raw)⟩ := by
    simp only [entryOf, hpf, hstrip_empty, Bool.false_eq_true, if_false]
    rw [if_neg hc1, if_pos hc2, analyze_resume_fst, analyze_resume_snd]
  have hranked : rankedResults (mainRun encode cosSim job_title job_desc ⟨0, 1⟩ folder
      [⟨fname, .ok raw⟩]) =
      [⟨fname, pathJoin folder fname, fileTypeOf fname, strip raw,
        cosSim (encode (job_text_of (job_keywords job_title job_desc)))
          (encode (strip raw)),
        countMatches (job_keywords job_title job_desc) (strip raw)⟩] := by
    rw [rankedResults_mainRun]
    have hvalid : validFilesOf [⟨fname, .ok raw⟩] = [⟨fname, .ok raw⟩] := by
      simp [validFilesOf, hvfile]
    rw [hvalid]
    simp [hentry, sortResults]
  rw [hranked]
  refine ⟨rfl, ?_⟩
  intro e he
  rw [List.mem_singleton] at he
  subst he
  exact hm1

/-! ### Witnesses -/

theorem C1_witness :
    ((mainRun (fun _ => ()) (fun _ _ => (1 : ℚ)) "abcd".toList [] ⟨0, 1⟩ "f".toList
      [⟨"cv.pdf".toList, .ok "abcd".toList⟩]).outcome =
      .ranked [⟨"cv.pdf".toList, "f/cv.pdf".toList, "pdf".toList, "abcd".toList,
        (1 : ℚ), 1⟩]) ∧
    ∀ e ∈ [(⟨"cv.pdf".toList, "f/cv.pdf".toList, "pdf".toList, "abcd".toList,
        (1 : ℚ), 1⟩ : ResultEntry)],
      (1 : Nat) ≤ e.Matches ∧ (0 : ℚ) ≤ e.Score := by
  have h : (mainRun (fun _ => ()) (fun _ _ => (1 : ℚ)) "abcd".toList [] ⟨0, 1⟩
      "f".toList [⟨"cv.pdf".toList, .ok "abcd".toList⟩]).outcome =
      .ranked [⟨"cv.pdf".toList, "f/cv.pdf".toList, "pdf".toList, "abcd".toList,
        (1 : ℚ), 1⟩] := by
    with_unfolding_all rfl
  exact ⟨h, C1_threshold_invariant (fun _ => ()) (fun _ _ => (1 : ℚ)) "abcd".toList []
    ⟨0, 1⟩ "f".toList [⟨"cv.pdf".toList, .ok "abcd".toList⟩] _ h⟩

theorem C2_witness :
    ("abcd".toList ≠ ([] : Str)) ∧
    countOccurrences "abcd".toList (strip "abcd abcd abcd".toList) = 3 ∧
    endsWith ".pdf".toList (lowerStr "cv.pdf".toList) = true ∧
    ((0 : ℚ) ≤ 1) ∧
    ((rankedResults (mainRun (fun _ => ()) (fun _ _ => (1 : ℚ)) "abcd".toList []
      ⟨0, 1⟩ "f".toList
      [⟨"cv.pdf".toList, .ok "abcd abcd abcd".toList⟩])).length = 1 ∧
     ∀ e ∈ rankedResults (mainRun (fun _ => ()) (fun _ _ => (1 : ℚ)) "abcd".toList []
      ⟨0, 1⟩ "f".toList
      [⟨"cv.pdf".toList, .ok "abcd abcd abcd".toList⟩]), 1 ≤ e.Matches) := by
  refine ⟨by decide, by decide, by decide, by norm_num, ?_⟩
  exact C2_single_pdf_amended (fun _ => ()) (fun _ _ => (1 : ℚ)) "abcd".toList []
    "f".toList "cv.pdf".toList "abcd abcd abcd".toList (by decide) (by decide)
    (by decide) (by norm_num)

theorem C4_witness :
    (process_file "bad.pdf".toList (Except.ok ([] : Str))).1 = [] ∧
    rankedResults (mainRun (fun _ => ()) (fun _ _ => (1 : ℚ)) "abcd".toList [] ⟨0, 1⟩
        "f".toList ([⟨"a.pdf".toList, .ok "abcd".toList⟩] ++
          ⟨"bad.pdf".toList, .ok ([] : Str)⟩ :: [])) =
      rankedResults (mainRun (fun _ => ()) (fun _ _ => (1 : ℚ)) "abcd".toList [] ⟨0, 1⟩
        "f".toList ([⟨"a.pdf".toList, .ok "abcd".toList⟩] ++ [])) :=
  ⟨rfl, C4_empty_extraction_skipped (fun _ => ()) (fun _ _ => (1 : ℚ)) "abcd".toList
    [] ⟨0, 1⟩ "f".toList [⟨"a.pdf".toList, .ok "abcd".toList⟩] []
    ⟨"bad.pdf".toList, .ok []⟩ rfl⟩

theorem C5_witness :
    ((mainRun (fun _ => ()) (fun _ _ => (1 : ℚ)) "abcd".toList [] ⟨0, 1⟩ "f".toList
      [⟨"a.pdf".toList, .ok "abcd".toList⟩, ⟨"b.pdf".toList, .ok "abcd".toList⟩]).outcome =
      .ranked [⟨"a.pdf".toList, "f/a.pdf".toList, "pdf".toList, "abcd".toList, (1 : ℚ), 1⟩,
        ⟨"b.pdf".toList, "f/b.pdf".toList, "pdf".toList, "abcd".toList, (1 : ℚ), 1⟩]) ∧
    (List.Chain' (fun a b => b.Score ≤ a.Score)
      [(⟨"a.pdf".toList, "f/a.pdf".toList, "pdf".toList, "abcd".toList, (1 : ℚ), 1⟩ :
        ResultEntry),
       ⟨"b.pdf".toList, "f/b.pdf".toList, "pdf".toList, "abcd".toList, (1 : ℚ), 1⟩] ∧
     ∀ q : ℚ,
      ([(⟨"a.pdf".toList, "f/a.pdf".toList, "pdf".toList, "abcd".toList, (1 : ℚ), 1⟩ :
        ResultEntry),
        ⟨"b.pdf".toList, "f/b.pdf".toList, "pdf".toList, "abcd".toList, (1 : ℚ), 1⟩]).filter
          (fun e => decide (e.Score = q)) =
        (loopResults (fun _ => ()) (fun _ _ => (1 : ℚ)) "abcd".toList [] ⟨0, 1⟩
          "f".toList [⟨"a.pdf".toList, .ok "abcd".toList⟩,
            ⟨"b.pdf".toList, .ok "abcd".toList⟩]).filter
          fun e => decide (e.Score = q)) := by
  have h : (mainRun (fun _ => ()) (fun _ _ => (1 : ℚ)) "abcd".toList [] ⟨0, 1⟩
      "f".toList [⟨"a.pdf".toList, .ok "abcd".toList⟩,
        ⟨"b.pdf".toList, .ok "abcd".toList⟩]).outcome =
      .ranked [⟨"a.pdf".toList, "f/a.pdf".toList, "pdf".toList, "abcd".toList, (1 : ℚ), 1⟩,
        ⟨"b.pdf".toList, "f/b.pdf".toList, "pdf".toList, "abcd".toList, (1 : ℚ), 1⟩] := by
    with_unfolding_all rfl
  exact ⟨h, C5_sorted_and_stable (fun _ => ()) (fun _ _ => (1 : ℚ)) "abcd".toList []
    ⟨0, 1⟩ "f".toList [⟨"a.pdf".toList, .ok "abcd".toList⟩,
      ⟨"b.pdf".toList, .ok "abcd".toList⟩] _ h⟩

theorem C6_witness :
    (validFilesOf [⟨"a.pdf".toList, .error "boom".toList⟩,
      ⟨"b.pdf".toList, .ok "abcd".toList⟩]).isEmpty = false ∧
    ((mainRun (fun _ => ()) (fun _ _ => (1 : ℚ)) "abcd".toList [] ⟨0, 1⟩ "f".toList
      [⟨"a.pdf".toList, .error "boom".toList⟩,
       ⟨"b.pdf".toList, .ok "abcd".toList⟩]).progress.head? = some 0 ∧
     List.Chain' (· < ·)
      (mainRun (fun _ => ()) (fun _ _ => (1 : ℚ)) "abcd".toList [] ⟨0, 1⟩ "f".toList
        [⟨"a.pdf".toList, .error "boom".toList⟩,
         ⟨"b.pdf".toList, .ok "abcd".toList⟩]).progress ∧
     (∀ q ∈ (mainRun (fun _ => ()) (fun _ _ => (1 : ℚ)) "abcd".toList [] ⟨0, 1⟩
        "f".toList [⟨"a.pdf".toList, .error "boom".toList⟩,
          ⟨"b.pdf".toList, .ok "abcd".toList⟩]).progress, 0 ≤ q ∧ q ≤ 1) ∧
     (mainRun (fun _ => ()) (fun _ _ => (1 : ℚ)) "abcd".toList [] ⟨0, 1⟩ "f".toList
        [⟨"a.pdf".toList, .error "boom".toList⟩,
         ⟨"b.pdf".toList, .ok "abcd".toList⟩]).progress.length =
      1 + ((validFilesOf [⟨"a.pdf".toList, .error "boom".toList⟩,
          ⟨"b.pdf".toList, .ok "abcd".toList⟩]).filter
        (reportsProgress (job_keywords "abcd".toList []) ⟨0, 1⟩)).length ∧
     (mainRun (fun _ => ()) (fun _ _ => (1 : ℚ)) "abcd".toList [] ⟨0, 1⟩ "f".toList
        [⟨"a.pdf".toList, .error "boom".toList⟩,
         ⟨"b.pdf".toList, .ok "abcd".toList⟩]).progress =
      0 :: (((validFilesOf [⟨"a.pdf".toList, .error "boom".toList⟩,
            ⟨"b.pdf".toList, .ok "abcd".toList⟩]).enum.filter
          fun p => reportsProgress (job_keywords "abcd".toList []) ⟨0, 1⟩ p.2).map
        fun p => ((p.1 : ℚ) + 1) /
          ((validFilesOf [⟨"a.pdf".toList, .error "boom".toList⟩,
            ⟨"b.pdf".toList, .ok "abcd".toList⟩]).length : ℚ)) ∧
     ∀ flast, (validFilesOf [⟨"a.pdf".toList, .error "boom".toList⟩,
        ⟨"b.pdf".toList, .ok "abcd".toList⟩]).getLast? = some flast →
      (((1 : ℚ) ∈ (mainRun (fun _ => ()) (fun _ _ => (1 : ℚ)) "abcd".toList [] ⟨0, 1⟩
          "f".toList [⟨"a.pdf".toList, .error "boom".toList⟩,
            ⟨"b.pdf".toList, .ok "abcd".toList⟩]).progress) ↔
        reportsProgress (job_keywords "abcd".toList []) ⟨0, 1⟩ flast = true)) := by
  refine ⟨by decide, ?_⟩
  exact C6_progress_amended (fun _ => ()) (fun _ _ => (1 : ℚ)) "abcd".toList [] ⟨0, 1⟩
    "f".toList [⟨"a.pdf".toList, .error "boom".toList⟩,
      ⟨"b.pdf".toList, .ok "abcd".toList⟩] (by decide)

theorem C7_witness :
    ((mainRun (fun _ => ()) (fun _ _ => (1 : ℚ)) "abcd".toList [] ⟨0, 1⟩ "f".toList
      [⟨"cv2.pdf".toList, .ok "abcd".toList⟩]).outcome =
      .ranked [⟨"cv2.pdf".toList, "f/cv2.pdf".toList, "pdf".toList, "abcd".toList,
        (1 : ℚ), 1⟩]) ∧
    ∀ e ∈ [(⟨"cv2.pdf".toList, "f/cv2.pdf".toList, "pdf".toList, "abcd".toList,
        (1 : ℚ), 1⟩ : ResultEntry)], e.Score = (1 : ℚ) := by
  have h : (mainRun (fun _ => ()) (fun _ _ => (1 : ℚ)) "abcd".toList [] ⟨0, 1⟩
      "f".toList [⟨"cv2.pdf".toList, .ok "abcd".toList⟩]).outcome =
      .ranked [⟨"cv2.pdf".toList, "f/cv2.pdf".toList, "pdf".toList, "abcd".toList,
        (1 : ℚ), 1⟩] := by
    with_unfolding_all rfl
  exact ⟨h, C7_similarity_amended (fun _ => ()) (fun _ _ => (1 : ℚ)) "abcd".toList []
    ⟨0, 1⟩ "f".toList [⟨"cv2.pdf".toList, .ok "abcd".toList⟩] _ h⟩

theorem C8_witness :
    process_file "bad.pdf".toList (Except.error "boom".toList) =
      ([], some (warnMsg "bad.pdf".toList "boom".toList)) ∧
    isValidFile "bad.pdf".toList = true ∧
    warnMsg "bad.pdf".toList "boom".toList ∈
      (mainRun (fun _ => ()) (fun _ _ => (1 : ℚ)) "abcd".toList [] ⟨0, 1⟩ "f".toList
        ([] ++ ⟨"bad.pdf".toList, .error "boom".toList⟩ ::
          [⟨"ok.pdf".toList, .ok "abcd".toList⟩])).warnings := by
  refine ⟨rfl, by decide, ?_⟩
  exact (C8_extraction_failure_recovered (fun _ => ()) (fun _ _ => (1 : ℚ))
    "abcd".toList [] ⟨0, 1⟩ "f".toList [] [⟨"ok.pdf".toList, .ok "abcd".toList⟩]
    "bad.pdf".toList "boom".toList).2.2 (by decide)

theorem C9_witness :
    (∀ f ∈ [(⟨"notes.txt".toList, .ok "x".toList⟩ : FileInput)],
      isValidFile f.name = false) ∧
    (mainRun (fun _ => ()) (fun _ _ => (1 : ℚ)) "t".toList [] ⟨0, 0⟩ "f".toList
      [⟨"notes.txt".toList, .ok "x".toList⟩] = ⟨.noValidFiles, [], []⟩ ∧
     rankedResults (mainRun (fun _ => ()) (fun _ _ => (1 : ℚ)) "t".toList [] ⟨0, 0⟩
      "f".toList [⟨"notes.txt".toList, .ok "x".toList⟩]) = []) := by
  refine ⟨by decide, ?_⟩
  exact C9_no_candidate_files (fun _ => ()) (fun _ _ => (1 : ℚ)) "t".toList [] ⟨0, 0⟩
    "f".toList [⟨"notes.txt".toList, .ok "x".toList⟩] (by decide)
